import Mathlib

/-
Verification of the lexan DFA library (src/src/dfa.rs).

The Rust code is shallowly embedded: every HashMap is modelled as an
association list in insertion order with an update-in-place insert, every
HashSet as a duplicate-free list in insertion order, and every Rust `usize`
state id as a Nat.  Mutating methods become functions from Dfa to Dfa
(returning the method's result paired with the new automaton where the
source returns a value).  A Rust panic (indexing a missing HashMap key) is
modelled as Option.none or a dedicated result constructor.  Loops whose
termination the source leaves implicit take an explicit fuel argument.
-/

namespace Lexan

/-- Lookup in an association list, first binding wins (HashMap::get). -/
def alGet {α β : Type} [DecidableEq α] (al : List (α × β)) (k : α) : Option β :=
  match al with
  | [] => none
  | (k2, v) :: rest => if k2 = k then some v else alGet rest k

/-- Insert into an association list: update the existing binding in place,
otherwise append (HashMap::insert). -/
def alInsert {α β : Type} [DecidableEq α] (al : List (α × β)) (k : α) (v : β) :
    List (α × β) :=
  match al with
  | [] => [(k, v)]
  | (k2, v2) :: rest => if k2 = k then (k, v) :: rest else (k2, v2) :: alInsert rest k v

/-- Delete a key from an association list (HashMap::remove, dropping the value). -/
def alRemove {α β : Type} [DecidableEq α] (al : List (α × β)) (k : α) : List (α × β) :=
  al.filter (fun p => p.1 ≠ k)

/-- Insert into a list treated as a set (HashSet::insert): no-op when present,
append otherwise. -/
def sInsert {α : Type} [DecidableEq α] (s : List α) (x : α) : List α :=
  if x ∈ s then s else s ++ [x]

/-- Remove the first occurrence of an element (Vec::remove_item). -/
def removeItem {α : Type} [DecidableEq α] : List α → α → List α
  | [], _ => []
  | x :: xs, a => if x = a then xs else x :: removeItem xs a

/-- Equality of two lists viewed as sets (HashSet equality). -/
def listSetEq {α : Type} [DecidableEq α] (a b : List α) : Bool :=
  a.all (fun x => x ∈ b) && b.all (fun x => x ∈ a)

/-- The automaton of src/src/dfa.rs: states maps an id to its accept flag,
transitions maps a source id to its outgoing (symbol, destination) set. -/
structure Dfa (T : Type) where
  states : List (Nat × Bool)
  initial : Nat
  current : Nat
  transitions : List (Nat × List (T × Nat))
  alphabet : List T
deriving DecidableEq, Repr

namespace Dfa

variable {T : Type} [DecidableEq T]

/-- Dfa::new - one non-accepting state with id 0, which is initial and current. -/
def new : Dfa T :=
  { states := [(0, false)], initial := 0, current := 0, transitions := [], alphabet := [] }

/-- Dfa::add_state - allocates id max(keys)+1 (1 when there are no states),
inserts it with the given accept flag, and returns the id. -/
def addState (d : Dfa T) (accept : Bool) : Nat × Dfa T :=
  let index := ((d.states.map Prod.fst).foldl max 0) + 1
  (index, { d with states := alInsert d.states index accept })

/-- Dfa::state_accept - accept flag of the state, false when the id is absent. -/
def stateAccept (d : Dfa T) (index : Nat) : Bool :=
  (alGet d.states index).getD false

/-- Dfa::set_current - the source compares the id against states.len(), not
against the key set; none models Err("Non existant state"). -/
def setCurrent (d : Dfa T) (t : Nat) : Option (Dfa T) :=
  if t ≤ d.states.length then some { d with current := t } else none

/-- Dfa::set_initial. -/
def setInitial (d : Dfa T) (i : Nat) : Dfa T :=
  { d with initial := i }

/-- Dfa::rewind - sets current to initial. -/
def rewind (d : Dfa T) : Dfa T :=
  { d with current := d.initial }

/-- Dfa::set_current_state_accept. -/
def setCurrentStateAccept (d : Dfa T) (accept : Bool) : Dfa T :=
  { d with states := alInsert d.states d.current accept }

/-- Dfa::add_transition_to - records the symbol in the alphabet, then inserts
the (symbol, destination) pair into the source state's transition set. -/
def addTransitionTo (d : Dfa T) (state : Nat) (trans : T × Nat) : Dfa T :=
  let alphabet := sInsert d.alphabet trans.1
  let transitions :=
    match alGet d.transitions state with
    | some ts => alInsert d.transitions state (sInsert ts trans)
    | none => alInsert d.transitions state [trans]
  { d with alphabet := alphabet, transitions := transitions }

/-- Dfa::create_transition_between. -/
def createTransitionBetween (d : Dfa T) (origin dest : Nat) (b : T) : Dfa T :=
  d.addTransitionTo origin (b, dest)

/-- Dfa::create_transition - from the current state. -/
def createTransition (d : Dfa T) (b : T) (dest : Nat) : Dfa T :=
  d.createTransitionBetween d.current dest b

/-- Dfa::create_transition_and_walk. -/
def createTransitionAndWalk (d : Dfa T) (b : T) (dest : Nat) : Dfa T :=
  let d := d.createTransitionBetween d.current dest b
  { d with current := dest }

/-- Dfa::remove_state - first deletes, from every state's transition set, every
transition whose destination is the removed id; only then checks membership.
Returns (accept flag, removed outgoing set) when the id was present. -/
def removeState (d : Dfa T) (index : Nat) :
    Option (Bool × Option (List (T × Nat))) × Dfa T :=
  let transitions := d.transitions.map (fun p => (p.1, p.2.filter (fun t => t.2 ≠ index)))
  match alGet d.states index with
  | some accept =>
      (some (accept, alGet transitions index),
       { d with states := alRemove d.states index, transitions := alRemove transitions index })
  | none => (none, { d with transitions := transitions })

/-- The distinct destinations reachable from a transition set by one symbol
(the inner loop of Dfa::ndt_of building the set called multiple). -/
def destsOf (ts : List (T × Nat)) (c : T) : List Nat :=
  ts.foldl (fun m t => if t.1 = c then sInsert m t.2 else m) []

/-- The body of Dfa::ndt_of once the state's transition set has been read:
for each alphabet symbol keep the destination set when it has more than one
element. -/
def ndtOfKey (d : Dfa T) (ts : List (T × Nat)) : List (T × List Nat) :=
  d.alphabet.foldl
    (fun ndt c =>
      if 1 < (destsOf ts c).length then alInsert ndt c (destsOf ts c) else ndt)
    []

/-- Dfa::ndt_of - the source indexes self.transitions[index] inside the loop
over the alphabet, which panics when the state has no transition entry; none
models that panic (it cannot occur when the alphabet is empty, because the
loop body never runs). -/
def ndtOf (d : Dfa T) (index : Nat) : Option (List (T × List Nat)) :=
  match d.alphabet with
  | [] => some []
  | _ :: _ =>
      match alGet d.transitions index with
      | none => none
      | some ts => some (ndtOfKey d ts)

/-- Dfa::non_determinist_states - collects ndt_of for every state that owns a
transition entry (so the indexing cannot panic here); none when every state is
deterministic. -/
def nonDeterministStates (d : Dfa T) : Option (List (Nat × List (T × List Nat))) :=
  let ndet := d.transitions.foldl
    (fun acc p =>
      let ndt := ndtOfKey d p.2
      if ndt.isEmpty then acc else alInsert acc p.1 ndt)
    []
  if ndet.isEmpty then none else some ndet

/-- Step 1a of Dfa::determinize - expand the targets of a non-deterministic
transition through the subsets already recorded in state_map. -/
def expandTransTo (sm : List (Nat × List Nat)) (tos : List Nat) : List Nat :=
  tos.foldl
    (fun acc t =>
      match alGet sm t with
      | some m => m.foldl sInsert acc
      | none => sInsert acc t)
    []

/-- Step 1b of Dfa::determinize - find a synthesized state already mapped to
an equal subset. -/
def findEquivalent (sm : List (Nat × List Nat)) (transTo : List Nat) : Option Nat :=
  sm.findSome? (fun p => if listSetEq p.2 transTo then some p.1 else none)

/-- Steps 1a and 1b of Dfa::determinize for one (symbol, targets) entry:
expand the targets, reuse an equivalent synthesized state when one exists,
otherwise add a fresh state (accepting when any target accepts) and record its
subset in state_map. -/
def detNewstate (sm : List (Nat × List Nat)) (d : Dfa T) (tos : List Nat) :
    Nat × List (Nat × List Nat) × Dfa T :=
  let transTo := expandTransTo sm tos
  match findEquivalent sm transTo with
  | some st => (st, sm, d)
  | none =>
      let accept := tos.any (fun t => d.stateAccept t)
      let r := d.addState accept
      (r.1, alInsert sm r.1 transTo, r.2)

/-- The cleanup of Dfa::determinize: drain the transition set of s, keep the
transitions on other symbols as the deterministic rest, and return the removed
transitions on c. -/
def detCleanup (d : Dfa T) (s : Nat) (c : T) : List (T × Nat) × Dfa T :=
  match alGet d.transitions s with
  | some ts =>
      let dets := ts.foldl (fun m t => if t.1 = c then m else sInsert m t) []
      (ts.filter (fun t => t.1 = c),
        { d with transitions := alInsert d.transitions s dets })
  | none => ([], d)

/-- One (symbol, targets) entry of the phase-1 loop of Dfa::determinize,
threading (state_map, new_states, automaton): pick the new state, clean the
c-transitions of s, rewire s to the new state and record the removed
transitions under the new state. -/
def detStep1Sym (acc : List (Nat × List Nat) × List (Nat × List (T × Nat)) × Dfa T)
    (s : Nat) (c : T) (tos : List Nat) :
    List (Nat × List Nat) × List (Nat × List (T × Nat)) × Dfa T :=
  let next := detNewstate acc.1 acc.2.2 tos
  let cleaned := detCleanup next.2.2 s c
  let d := (cleaned.2).createTransitionBetween s next.1 c
  (next.2.1, alInsert acc.2.1 next.1 cleaned.1, d)

/-- Phase 1 of one Dfa::determinize iteration, over all non-deterministic
states and their symbol maps. -/
def detStep1 (sm : List (Nat × List Nat)) (nd : List (Nat × List (T × List Nat)))
    (d : Dfa T) : List (Nat × List Nat) × List (Nat × List (T × Nat)) × Dfa T :=
  nd.foldl
    (fun acc p => p.2.foldl (fun acc2 q => detStep1Sym acc2 p.1 q.1 q.2) acc)
    (sm, [], d)

/-- Phase 2 of Dfa::determinize for one synthesized state: find a superstate
whose subset equals the union of the removed targets' subsets and copy its
transitions, otherwise copy the union of the removed targets' transitions.
The source indexes self.transitions[&ss], which panics when the superstate has
no transition entry; none models that panic in detStep2One below.  The
superstate search: the union ss of the removed targets' recorded subsets, then
the first removed target whose subset equals ss. -/
def detSuperstate (sm : List (Nat × List Nat)) (ts : List (T × Nat)) : Option Nat :=
  let ss := ts.foldl
    (fun acc ndt =>
      match alGet sm ndt.2 with
      | some m => m.foldl sInsert acc
      | none => acc)
    []
  ts.findSome?
    (fun ndt =>
      match alGet sm ndt.2 with
      | some m => if listSetEq ss m then some ndt.2 else none
      | none => none)

/-- The union of the current transition sets of the removed targets, copied
when no superstate exists. -/
def detUnionTrans (d : Dfa T) (ts : List (T × Nat)) : List (T × Nat) :=
  ts.foldl
    (fun acc ndt =>
      match alGet d.transitions ndt.2 with
      | some tts => acc ++ tts
      | none => acc)
    []

def detStep2One (sm : List (Nat × List Nat)) (dOpt : Option (Dfa T)) (ns : Nat)
    (ts : List (T × Nat)) : Option (Dfa T) :=
  match dOpt with
  | none => none
  | some d =>
      match detSuperstate sm ts with
      | some st =>
          match alGet d.transitions st with
          | none => none
          | some sts => some (sts.foldl (fun acc t => acc.addTransitionTo ns t) d)
      | none =>
          some ((detUnionTrans d ts).foldl (fun acc t => acc.addTransitionTo ns t) d)

/-- One full iteration of the Dfa::determinize while-loop body. -/
def detIter (sm : List (Nat × List Nat)) (d : Dfa T)
    (nd : List (Nat × List (T × List Nat))) : List (Nat × List Nat) × Option (Dfa T) :=
  let r := detStep1 sm nd d
  (r.1, r.2.1.foldl (fun acc p => detStep2One r.1 acc p.1 p.2) (some r.2.2))

/-- Outcome of running the Dfa::determinize loop with fuel: done is a normal
return, crashed models the Rust panic inside the loop body, fuelOut means the
fuel was exhausted while states were still non-deterministic. -/
inductive DetResult (T : Type) where
  | done : Dfa T → DetResult T
  | crashed : DetResult T
  | fuelOut : DetResult T
deriving DecidableEq, Repr

/-- The Dfa::determinize while-let loop with an explicit fuel bound on the
number of iterations; state_map starts empty at the outer call. -/
def determinizeLoop : Nat → List (Nat × List Nat) → Dfa T → DetResult T
  | 0, _, d =>
      match nonDeterministStates d with
      | none => DetResult.done d
      | some _ => DetResult.fuelOut
  | n + 1, sm, d =>
      match nonDeterministStates d with
      | none => DetResult.done d
      | some nd =>
          match detIter sm d nd with
          | (_, none) => DetResult.crashed
          | (sm2, some d2) => determinizeLoop n sm2 d2

/-- Whether a determinize run returned normally. -/
def DetResult.isDone {T : Type} : DetResult T → Bool
  | DetResult.done _ => true
  | _ => false

/-- Dfa::determinize terminates on an automaton when some fuel makes the loop
return normally. -/
def determinizeTerminates (d : Dfa T) : Prop :=
  ∃ n d2, determinizeLoop n [] d = DetResult.done d2

/-- Insert into a sorted list of state ids, keeping it sorted. -/
def sortedInsert (x : Nat) : List Nat → List Nat
  | [] => [x]
  | y :: ys => if x ≤ y then x :: y :: ys else y :: sortedInsert x ys

/-- Sort state ids ascending (the unreached.sort() calls of the source). -/
def sortNat (l : List Nat) : List Nat :=
  l.foldr sortedInsert []

/-- Sum of the sizes of all transition sets. -/
def totalTrans (d : Dfa T) : Nat :=
  d.transitions.foldl (fun n p => n + p.2.length) 0

/-- The while-loop of Dfa::get_unreachable_states: pop the queue front, enqueue
destinations still unreached, then remove the popped state from unreached.
binary_search on the sorted unreached vector is membership. -/
def bfsLoop : Nat → Dfa T → List Nat → List Nat → List Nat
  | 0, _, unreached, _ => unreached
  | n + 1, d, unreached, queue =>
      if unreached.isEmpty then unreached
      else
        match queue with
        | [] => unreached
        | current :: rest =>
            let rest :=
              match alGet d.transitions current with
              | some ts =>
                  ts.foldl (fun q t => if t.2 ∈ unreached then q ++ [t.2] else q) rest
              | none => rest
            bfsLoop n d (removeItem unreached current) rest

/-- Dfa::get_unreachable_states - BFS from the initial state over the sorted
state ids; the fuel bound is generous, the examples below exit the loop early. -/
def getUnreachableStates (d : Dfa T) : List Nat :=
  let unreached := sortNat (d.states.map Prod.fst)
  bfsLoop ((d.states.length + 1) * (totalTrans d + 1) + 1) d unreached [d.initial]

/-- Dfa::remove_unreachable_states. -/
def removeUnreachableStates (d : Dfa T) : Dfa T :=
  (getUnreachableStates d).foldl (fun acc s => (acc.removeState s).2) d

/-- The path-correction inner while of Dfa::get_dead_states; the path is kept
most-recent-first, so Vec::last is the list head. -/
def fixPath (path : List Nat) (stackedBy : Nat) : List Nat :=
  match path with
  | [] => []
  | p :: rest => if stackedBy ≠ p then fixPath rest stackedBy else p :: rest

/-- The while-loop of Dfa::get_dead_states.  The stack is kept top-first (Vec
push/pop at the end); per popped state the transition loop rescues accepting or
already-rescued neighbours together with the whole current path, and stacks
unvisited neighbours.  binary_search on the sorted dead vector is membership. -/
def deadLoop : Nat → Dfa T → List Nat → List Nat → List Nat → List (Nat × Nat) → List Nat
  | 0, _, _, dead, _, _ => dead
  | n + 1, d, unvisited, dead, path, stack =>
      if dead.isEmpty then dead
      else
        match stack with
        | [] => dead
        | (current, stackedBy) :: stackRest =>
            let path := current :: fixPath path stackedBy
            match alGet d.transitions current with
            | none => deadLoop n d unvisited dead path stackRest
            | some transList =>
                let step := transList.foldl
                  (fun (acc : List Nat × List Nat × List (Nat × Nat)) t =>
                    let dead := acc.1
                    let unvisited := acc.2.1
                    let stack := acc.2.2
                    let dead :=
                      if d.stateAccept t.2 || t.2 ∉ dead then
                        path.foldl removeItem (removeItem dead t.2)
                      else dead
                    if t.2 ∈ unvisited then
                      (dead, removeItem unvisited t.2, (t.2, current) :: stack)
                    else (dead, unvisited, stack))
                  (dead, unvisited, stackRest)
                deadLoop n d step.2.1 step.1 path step.2.2

/-- Dfa::get_dead_states - the DFS with path rescue, starting from the initial
state with dead and unvisited both the sorted state ids. -/
def getDeadStates (d : Dfa T) : List Nat :=
  let sorted := sortNat (d.states.map Prod.fst)
  deadLoop (d.states.length + 2) d sorted sorted [] [(d.initial, d.initial)]

/-- Dfa::remove_dead_states. -/
def removeDeadStates (d : Dfa T) : Dfa T :=
  (getDeadStates d).foldl (fun acc s => (acc.removeState s).2) d

/-- Dfa::minimize - unreachable removal then dead removal. -/
def minimize (d : Dfa T) : Dfa T :=
  removeDeadStates (removeUnreachableStates d)

/-- The body of the per-state loop of Dfa::insert_error_state: read the
state's transition set (the entry call inserts an empty set when absent), then
add a transition to the error state on every alphabet symbol the state lacks. -/
def insertErrorStep (errorState : Nat) (alphabet : List T) (acc : Dfa T) (state : Nat) :
    Dfa T :=
  let entry : List (T × Nat) × Dfa T :=
    match alGet acc.transitions state with
    | some ts => (ts, acc)
    | none => ([], { acc with transitions := alInsert acc.transitions state [] })
  let transitionsBy := entry.1.map Prod.fst
  let missing := alphabet.filter (fun ch => ch ∉ transitionsBy)
  missing.foldl (fun acc2 ch => acc2.createTransitionBetween state errorState ch) entry.2

/-- Dfa::insert_error_state - adds one fresh state with accept flag true (the
source passes true to add_state), then runs the per-state loop over all state
ids, including the fresh one, with the alphabet snapshot. -/
def insertErrorState (d : Dfa T) : Dfa T :=
  let r := d.addState true
  (r.2.states.map Prod.fst).foldl (insertErrorStep r.1 r.2.alphabet) r.2

/-- The main.rs pipeline determinize, minimize, insert_error_state; none when
the determinize loop crashed or ran out of fuel. -/
def pipeline (fuel : Nat) (d : Dfa T) : Option (Dfa T) :=
  match determinizeLoop fuel [] d with
  | DetResult.done d2 => some (insertErrorState (minimize d2))
  | _ => none

/-- One step of the subset simulation of the automaton: all destinations
reachable from the given state set by one symbol. -/
def stepSet (d : Dfa T) (cur : List Nat) (c : T) : List Nat :=
  cur.foldl
    (fun acc s =>
      match alGet d.transitions s with
      | some ts => ts.foldl (fun a t => if t.1 = c then sInsert a t.2 else a) acc
      | none => acc)
    []

/-- A word is accepted when some path from the initial state consumes it and
ends in an accepting state (the language of the automaton, used by the spec). -/
def accepts (d : Dfa T) (w : List T) : Bool :=
  (w.foldl (stepSet d) [d.initial]).any (fun s => d.stateAccept s)

/-- One expansion step of forward reachability: add every destination of every
state already in the set. -/
def stepOnce (d : Dfa T) (cur : List Nat) : List Nat :=
  cur.foldl
    (fun acc s =>
      match alGet d.transitions s with
      | some ts => ts.foldl (fun a t => sInsert a t.2) acc
      | none => acc)
    cur

/-- All states reachable from s by some path (expansion iterated once per
state, enough to saturate). -/
def reachSet (d : Dfa T) (s : Nat) : List Nat :=
  (List.range d.states.length).foldl (fun acc _ => stepOnce d acc) [s]

/-- The spec notion used for dead states: some path from s reaches an
accepting state (the empty path counts, so accepting states qualify). -/
def canReachAccept (d : Dfa T) (s : Nat) : Bool :=
  (reachSet d s).any (fun x => d.stateAccept x)

end Dfa

open Dfa

/-- Build an automaton from fresh states (accept flags, added in order after
the implicit state 0) and a transition list, via the container operations. -/
def buildDfa (accs : List Bool) (trs : List (Nat × Char × Nat)) : Dfa Char :=
  let d := accs.foldl (fun acc b => (acc.addState b).2) (Dfa.new : Dfa Char)
  trs.foldl (fun acc t => acc.createTransitionBetween t.1 t.2.2 t.2.1) d

/-- Language {"a"}: state 1 accepting, one transition 0 -a-> 1. -/
def exSingleA : Dfa Char :=
  buildDfa [true] [(0, 'a', 1)]

/-- The determinize crash input: five non-accepting states, transitions
1 -a-> 2, 1 -a-> 4, 2 -b-> 3, 2 -b-> 0, 4 -b-> 0. -/
def exCrash : Dfa Char :=
  buildDfa [false, false, false, false]
    [(1, 'a', 2), (1, 'a', 4), (2, 'b', 3), (2, 'b', 0), (4, 'b', 0)]

/-- States 0 (initial), 1 accepting, 2 unreachable; transitions 0 -a-> 1 and
2 -a-> 1, so state 2 has a path to the accepting state 1. -/
def exDeadMiss : Dfa Char :=
  buildDfa [true, false] [(0, 'a', 1), (2, 'a', 1)]

/-- new, then add_state twice, remove the second, add_state again: the last
allocation returns the id freed by the removal. -/
def exReuse : Dfa Char :=
  (((Dfa.new : Dfa Char).addState false).2.addState false).2

/-- The automaton for the alphabet counterexample: one transition 0 -a-> 1,
then state 1 removed. -/
def exAlpha : Dfa Char :=
  ((buildDfa [false] [(0, 'a', 1)]).removeState 1).2

/-- Every symbol on a current transition belongs to the alphabet field (one
inclusion of the claimed alphabet invariant). -/
def transSymbolsOk {T : Type} [DecidableEq T] (d : Dfa T) : Bool :=
  d.transitions.all (fun p => p.2.all (fun t => t.1 ∈ d.alphabet))

/-- The same inclusion as a proposition. -/
def symOk {T : Type} [DecidableEq T] (d : Dfa T) : Prop :=
  ∀ p ∈ d.transitions, ∀ t ∈ p.2, t.1 ∈ d.alphabet

/-- The mutating operations of the library, used to quantify over every
sequence of operations. -/
inductive Op where
  | addSt : Bool → Op
  | setInit : Nat → Op
  | rewindOp : Op
  | setCur : Nat → Op
  | setCurAccept : Bool → Op
  | addTrans : Nat → Char × Nat → Op
  | createBetween : Nat → Nat → Char → Op
  | createTr : Char → Nat → Op
  | createWalk : Char → Nat → Op
  | rmSt : Nat → Op
  | rmUnreach : Op
  | rmDead : Op
  | minimizeOp : Op
  | insertErr : Op
  | determinizeOp : Nat → Op

/-- Run the determinize loop with the given fuel, keeping the automaton as is
unless the loop returns normally. -/
def runDeterminize (fuel : Nat) (d : Dfa Char) : Dfa Char :=
  match determinizeLoop fuel [] d with
  | DetResult.done d2 => d2
  | _ => d

/-- Apply one operation; a failing set_current and a non-returning determinize
leave the automaton unchanged (in the source the program would stop there). -/
def applyOp (d : Dfa Char) : Op → Dfa Char
  | Op.addSt b => (d.addState b).2
  | Op.setInit i => d.setInitial i
  | Op.rewindOp => d.rewind
  | Op.setCur i => (d.setCurrent i).getD d
  | Op.setCurAccept b => d.setCurrentStateAccept b
  | Op.addTrans s t => d.addTransitionTo s t
  | Op.createBetween o t b => d.createTransitionBetween o t b
  | Op.createTr b t => d.createTransition b t
  | Op.createWalk b t => d.createTransitionAndWalk b t
  | Op.rmSt i => (d.removeState i).2
  | Op.rmUnreach => d.removeUnreachableStates
  | Op.rmDead => d.removeDeadStates
  | Op.minimizeOp => d.minimize
  | Op.insertErr => d.insertErrorState
  | Op.determinizeOp fuel => runDeterminize fuel d

/-- Apply a sequence of operations to a fresh automaton. -/
def applyOps (ops : List Op) : Dfa Char :=
  ops.foldl applyOp Dfa.new

/-- An automaton with a state (id 1) that has no outgoing transitions while
the alphabet is non-empty. -/
def exNoTrans : Dfa Char :=
  buildDfa [true] [(0, 'a', 1)]

/-- An automaton whose state 0 is non-deterministic on the symbol a. -/
def exNdt : Dfa Char :=
  buildDfa [false, false] [(0, 'a', 1), (0, 'a', 2)]

/-- A fresh automaton given one transition whose destination, state 1, was
never added to States. -/
def exAbsentDest : Dfa Char :=
  (Dfa.new : Dfa Char).addTransitionTo 0 ('a', 1)

/-- C1 (code_bug): on the automaton with language {"a"}, the pipeline
determinize, minimize, insert_error_state changes the language: the word "aa"
is rejected by the original automaton but accepted afterwards, because
insert_error_state creates the sink state accepting. -/
theorem pipeline_changes_language_c1 :
    accepts exSingleA ['a', 'a'] = false ∧
      Option.map (fun d => accepts d ['a', 'a']) (pipeline 10 exSingleA) = some true := by
  decide

/-- C3 (code_bug): get_dead_states classifies state 2 as dead although state 2
reaches the accepting state 1 through its transition on a; state 2 is merely
unreachable from the initial state, so the DFS never visits it. -/
theorem get_dead_states_misclassify_c3 :
    getDeadStates exDeadMiss = [2] ∧ canReachAccept exDeadMiss 2 = true ∧
      stateAccept exDeadMiss 1 = true := by
  decide

/-- C4 (code_bug): after insert_error_state on the {"a"} automaton the fresh
sink state 2 self-loops on the whole alphabet and every other state has
exactly one transition per symbol, but the sink is marked accepting, not
non-accepting as the claim requires. -/
theorem insert_error_state_sink_accepting_c4 :
    stateAccept (insertErrorState exSingleA) 2 = true ∧
      alGet (insertErrorState exSingleA).transitions 2 = some [('a', 2)] ∧
      alGet (insertErrorState exSingleA).transitions 0 = some [('a', 1)] ∧
      alGet (insertErrorState exSingleA).transitions 1 = some [('a', 2)] := by
  decide

/-- C5 (counterexample): add_state allocated id 2, then after removing state 2
the next add_state allocates id 2 again, so ids are reused after removals. -/
theorem add_state_id_reuse_cex_c5 :
    (((Dfa.new : Dfa Char).addState false).2.addState false).1 = 2 ∧
      ((exReuse.removeState 2).2.addState false).1 = 2 := by
  decide

/-- C6 (code_bug): on a fresh automaton the only state id is 0, yet
set_current(1) succeeds and sets current to 1, because the source compares the
id with states.len() instead of testing key membership. -/
theorem set_current_off_by_one_c6 :
    (Dfa.new : Dfa Char).states = [(0, false)] ∧
      Dfa.setCurrent (Dfa.new : Dfa Char) 1 =
        some { (Dfa.new : Dfa Char) with current := 1 } := by
  decide

/-- C7 (counterexample): after adding transition 0 -a-> 1 and removing state 1
no transition carries the symbol a any more, yet the alphabet still contains
a, so the alphabet is not the set of symbols on current transitions. -/
theorem alphabet_not_shrunk_cex_c7 :
    exAlpha.alphabet = ['a'] ∧ exAlpha.transitions = [(0, [])] := by
  decide

/-- C8 (counterexample): a second insert_error_state call adds one more state
(3 states become 4), so applying it twice does not leave the state set of the
first application unchanged. -/
theorem insert_error_state_twice_cex_c8 :
    (insertErrorState exSingleA).states.length = 3 ∧
      (insertErrorState (insertErrorState exSingleA)).states.length = 4 := by
  decide

/-- C9 (counterexample): state 1 exists but has no transition entry, and the
alphabet is non-empty, so ndt_of(1) panics (indexing transitions[1]) instead
of returning an empty map. -/
theorem ndt_of_crashes_cex_c9 :
    alGet exNoTrans.states 1 = some true ∧ exNoTrans.alphabet = ['a'] ∧
      ndtOf exNoTrans 1 = none := by
  decide

/-- Once the determinize loop crashes within some fuel, any larger fuel hits
the same crash. -/
theorem determinizeLoop_crashed_le {T : Type} [DecidableEq T] :
    ∀ (k n : Nat) (sm : List (Nat × List Nat)) (d : Dfa T),
      determinizeLoop k sm d = DetResult.crashed → k ≤ n →
      determinizeLoop n sm d = DetResult.crashed := by
  intro k
  induction k with
  | zero =>
      intro n sm d h _
      rcases hnd : nonDeterministStates d with _ | nd <;>
        simp [determinizeLoop, hnd] at h
  | succ m ih =>
      intro n sm d h hle
      rcases hnd : nonDeterministStates d with _ | nd
      · simp [determinizeLoop, hnd] at h
      · rcases hit : detIter sm d nd with ⟨sm2, od⟩
        obtain ⟨j, rfl⟩ : ∃ j, n = j + 1 := ⟨n - 1, by omega⟩
        rcases od with _ | d2
        · simp [determinizeLoop, hnd, hit]
        · simp only [determinizeLoop, hnd, hit] at h ⊢
          exact ih j sm2 d2 h (by omega)

/-- C2 (code_bug): on exCrash the determinize loop panics in its second
iteration (indexing transitions[ss] for a synthesized superstate that owns no
transition entry), and no amount of fuel makes determinize return: the loop
never reaches a deterministic automaton. -/
theorem determinize_crashes_c2 :
    determinizeLoop 2 [] exCrash = DetResult.crashed ∧
      ∀ n : Nat, DetResult.isDone (determinizeLoop n [] exCrash) = false := by
  refine ⟨by decide, ?_⟩
  intro n
  match n with
  | 0 => decide
  | 1 => decide
  | m + 2 =>
      rw [determinizeLoop_crashed_le 2 (m + 2) [] exCrash (by decide) (by omega)]
      rfl

/-- C10 (confirmed): remove_state on an id that is not a key of States returns
None, yet it has already filtered from every state's transition set each
transition whose destination is that id, so the automaton can change even
though None signals absence; the state map itself is untouched. -/
theorem remove_state_absent_c10 (d : Dfa Char) (i : Nat)
    (h : alGet d.states i = none) :
    (d.removeState i).1 = none ∧
      (d.removeState i).2.transitions =
        d.transitions.map (fun p => (p.1, p.2.filter (fun t => t.2 ≠ i))) ∧
      (d.removeState i).2.transitions.all (fun p => p.2.all (fun t => t.2 ≠ i)) = true ∧
      (d.removeState i).2.states = d.states := by
  refine ⟨?_, ?_, ?_, ?_⟩ <;> simp only [removeState, h]
  · rw [List.all_eq_true]
    intro p hp
    rw [List.mem_map] at hp
    obtain ⟨q, _, rfl⟩ := hp
    rw [List.all_eq_true]
    intro t ht
    rw [List.mem_filter] at ht
    exact ht.2

/-- Instantiates remove_state_absent_c10 on the automaton holding one edge
0 -a-> 1 whose destination 1 was never added to States. -/
theorem remove_state_absent_c10_witness :
    (exAbsentDest.removeState 1).1 = none ∧
      (exAbsentDest.removeState 1).2.transitions =
        exAbsentDest.transitions.map (fun p => (p.1, p.2.filter (fun t => t.2 ≠ 1))) ∧
      (exAbsentDest.removeState 1).2.transitions.all
          (fun p => p.2.all (fun t => t.2 ≠ 1)) = true ∧
      (exAbsentDest.removeState 1).2.states = exAbsentDest.states :=
  remove_state_absent_c10 exAbsentDest 1 (by decide)

/-- The left fold of max never drops below its initial accumulator. -/
theorem foldl_max_init_le (l : List Nat) : ∀ a : Nat, a ≤ l.foldl max a := by
  induction l with
  | nil => intro a; exact Nat.le_refl a
  | cons x xs ih => intro a; exact Nat.le_trans (Nat.le_max_left a x) (ih (max a x))

/-- Every list member is bounded by the left fold of max. -/
theorem mem_le_foldl_max (l : List Nat) : ∀ (a k : Nat), k ∈ l → k ≤ l.foldl max a := by
  induction l with
  | nil => intro a k h; cases h
  | cons x xs ih =>
      intro a k h
      cases h with
      | head => exact Nat.le_trans (Nat.le_max_right a x) (foldl_max_init_le xs (max a x))
      | tail _ h2 => exact ih (max a x) k h2

/-- C5 (amended): add_state returns one more than the maximum id currently in
States, an id strictly greater than every id currently present, hence fresh;
it is not strictly greater than every id ever allocated, since removing the
maximal state lets an old id be reallocated (see the counterexample). -/
theorem add_state_fresh_c5 :
    ∀ (d : Dfa Char) (b : Bool),
      (d.addState b).1 = (d.states.map Prod.fst).foldl max 0 + 1 ∧
        (d.states.map Prod.fst).all (fun k => k < (d.addState b).1) = true := by
  intro d b
  refine ⟨rfl, ?_⟩
  rw [List.all_eq_true]
  intro k hk
  have hle := mem_le_foldl_max (d.states.map Prod.fst) 0 k hk
  simp only [addState, decide_eq_true_eq]
  omega

/-- Inserting a key absent from an association list appends the binding. -/
theorem alInsert_of_not_mem {α β : Type} [DecidableEq α] :
    ∀ (al : List (α × β)) (k : α) (v : β),
      k ∉ al.map Prod.fst → alInsert al k v = al ++ [(k, v)] := by
  intro al
  induction al with
  | nil => intro k v _; rfl
  | cons p rest ih =>
      intro k v h
      obtain ⟨k2, v2⟩ := p
      rw [List.map_cons, List.mem_cons] at h
      push_neg at h
      have hne : ¬(k2 = k) := fun he => h.1 (by rw [he])
      simp only [alInsert, if_neg hne, List.cons_append, List.cons.injEq, true_and]
      exact ih k v h.2

/-- add_state appends the fresh binding at the end of the state list. -/
theorem addState_states {T : Type} [DecidableEq T] (d : Dfa T) (b : Bool) :
    (d.addState b).2.states =
      d.states ++ [((d.states.map Prod.fst).foldl max 0 + 1, b)] := by
  have hfresh : ((d.states.map Prod.fst).foldl max 0 + 1) ∉ d.states.map Prod.fst := by
    intro hmem
    have := mem_le_foldl_max (d.states.map Prod.fst) 0 _ hmem
    omega
  simp only [addState]
  exact alInsert_of_not_mem _ _ _ hfresh

/-- A fold whose step keeps the state list unchanged keeps it unchanged. -/
theorem foldl_states_eq {T α : Type} [DecidableEq T] (f : Dfa T → α → Dfa T)
    (hf : ∀ (x : Dfa T) (a : α), (f x a).states = x.states) :
    ∀ (l : List α) (x : Dfa T), (l.foldl f x).states = x.states := by
  intro l
  induction l with
  | nil => intro x; rfl
  | cons a as ih => intro x; rw [List.foldl_cons, ih, hf]

/-- The per-state loop of insert_error_state never touches the state list. -/
theorem insertErrorStep_states {T : Type} [DecidableEq T] (e : Nat) (alpha : List T)
    (x : Dfa T) (s : Nat) : (insertErrorStep e alpha x s).states = x.states := by
  unfold insertErrorStep
  rcases h : alGet x.transitions s with _ | ts <;>
    · simp only [h]
      exact foldl_states_eq (fun y ch => y.createTransitionBetween s e ch)
        (fun y ch => rfl) _ _

/-- C8 (amended): every call to insert_error_state, a second one included,
appends exactly one fresh accepting state to the state list, so the second
call does add a state; on an already total automaton the new sink only
receives its own self-loops. -/
theorem insert_error_state_appends_one_c8 {T : Type} [DecidableEq T] :
    ∀ d : Dfa T,
      (insertErrorState d).states =
        d.states ++ [((d.states.map Prod.fst).foldl max 0 + 1, true)] := by
  intro d
  unfold insertErrorState
  rw [foldl_states_eq (insertErrorStep _ _) (insertErrorStep_states _ _)]
  exact addState_states d true

/-- Membership in a set-list after insertion. -/
theorem mem_sInsert_iff {α : Type} [DecidableEq α] (s : List α) (x y : α) :
    y ∈ sInsert s x ↔ y = x ∨ y ∈ s := by
  by_cases h : x ∈ s
  · simp only [sInsert, if_pos h]
    constructor
    · intro hy; exact Or.inr hy
    · rintro (rfl | hy)
      · exact h
      · exact hy
  · simp only [sInsert, if_neg h, List.mem_append, List.mem_singleton]
    exact or_comm

/-- Insertion into a duplicate-free set-list keeps it duplicate-free. -/
theorem nodup_sInsert {α : Type} [DecidableEq α] (s : List α) (x : α) (h : s.Nodup) :
    (sInsert s x).Nodup := by
  by_cases hm : x ∈ s
  · simpa only [sInsert, if_pos hm] using h
  · rw [sInsert, if_neg hm, List.nodup_append]
    exact ⟨h, List.nodup_singleton x, fun a ha hax => hm (by
      rw [List.mem_singleton] at hax
      rwa [hax] at ha)⟩

/-- A successful association-list lookup produces a member pair. -/
theorem alGet_mem {α β : Type} [DecidableEq α] :
    ∀ (al : List (α × β)) (k : α) (v : β), alGet al k = some v → (k, v) ∈ al := by
  intro al
  induction al with
  | nil => intro k v h; cases h
  | cons p rest ih =>
      intro k v h
      obtain ⟨k2, v2⟩ := p
      by_cases hk : k2 = k
      · rw [alGet, if_pos hk] at h
        obtain rfl := hk
        obtain rfl : v2 = v := Option.some.inj h
        exact List.mem_cons_self _ _
      · rw [alGet, if_neg hk] at h
        exact List.mem_cons_of_mem _ (ih k v h)

/-- Every pair of an updated association list is the new binding or an old pair. -/
theorem mem_alInsert {α β : Type} [DecidableEq α] :
    ∀ (al : List (α × β)) (k : α) (v : β) (p : α × β),
      p ∈ alInsert al k v → p = (k, v) ∨ p ∈ al := by
  intro al
  induction al with
  | nil =>
      intro k v p h
      rw [alInsert] at h
      exact Or.inl (List.mem_singleton.1 h)
  | cons q rest ih =>
      intro k v p h
      obtain ⟨k2, v2⟩ := q
      by_cases hk : k2 = k
      · rw [alInsert, if_pos hk] at h
        rcases List.mem_cons.1 h with rfl | h2
        · exact Or.inl rfl
        · exact Or.inr (List.mem_cons_of_mem _ h2)
      · rw [alInsert, if_neg hk] at h
        rcases List.mem_cons.1 h with rfl | h2
        · exact Or.inr (List.mem_cons_self _ _)
        · rcases ih k v p h2 with h3 | h3
          · exact Or.inl h3
          · exact Or.inr (List.mem_cons_of_mem _ h3)

/-- Lookup after an association-list update. -/
theorem alGet_alInsert {α β : Type} [DecidableEq α] :
    ∀ (al : List (α × β)) (k : α) (v : β) (k2 : α),
      alGet (alInsert al k v) k2 = if k = k2 then some v else alGet al k2 := by
  intro al
  induction al with
  | nil =>
      intro k v k2
      by_cases h : k = k2 <;> simp [alGet, alInsert, h]
  | cons q rest ih =>
      intro k v k2
      obtain ⟨k3, v3⟩ := q
      by_cases h3 : k3 = k
      · subst h3
        rw [alInsert, if_pos rfl]
        by_cases h : k3 = k2
        · rw [alGet, if_pos h, if_pos h, ]
        · rw [alGet, if_neg h, if_neg h, alGet, if_neg h]
      · rw [alInsert, if_neg h3]
        by_cases h : k3 = k2
        · have hne : ¬(k = k2) := by
            intro he; exact h3 (by rw [he, h])
          rw [alGet, if_pos h, if_neg hne, alGet, if_pos h]
        · rw [alGet, if_neg h, ih, alGet, if_neg h]

/-- Membership in the destination set built by the ndt_of inner loop. -/
theorem mem_destsOf_aux {T : Type} [DecidableEq T] (c : T) :
    ∀ (ts : List (T × Nat)) (acc : List Nat) (x : Nat),
      x ∈ ts.foldl (fun m t => if t.1 = c then sInsert m t.2 else m) acc ↔
        x ∈ acc ∨ (c, x) ∈ ts := by
  intro ts
  induction ts with
  | nil => intro acc x; simp
  | cons t rest ih =>
      intro acc x
      rw [List.foldl_cons, ih, List.mem_cons]
      by_cases hc : t.1 = c
      · rw [if_pos hc, mem_sInsert_iff]
        constructor
        · rintro ((rfl | hx) | hx)
          · exact Or.inr (Or.inl (by rw [Prod.ext_iff]; exact ⟨hc.symm, rfl⟩))
          · exact Or.inl hx
          · exact Or.inr (Or.inr hx)
        · rintro (hx | (he | hx))
          · exact Or.inl (Or.inr hx)
          · rw [Prod.ext_iff] at he
            exact Or.inl (Or.inl he.2)
          · exact Or.inr hx
      · rw [if_neg hc]
        constructor
        · rintro (hx | hx)
          · exact Or.inl hx
          · exact Or.inr (Or.inr hx)
        · rintro (hx | (he | hx))
          · exact Or.inl hx
          · rw [Prod.ext_iff] at he
            exact absurd he.1.symm hc
          · exact Or.inr hx

/-- A destination belongs to destsOf exactly when the transition exists. -/
theorem mem_destsOf {T : Type} [DecidableEq T] (ts : List (T × Nat)) (c : T) (x : Nat) :
    x ∈ destsOf ts c ↔ (c, x) ∈ ts := by
  rw [destsOf, mem_destsOf_aux]
  simp

/-- The destination set of a symbol carries no duplicates. -/
theorem nodup_destsOf {T : Type} [DecidableEq T] (c : T) :
    ∀ (ts : List (T × Nat)) (acc : List Nat), acc.Nodup →
      (ts.foldl (fun m t => if t.1 = c then sInsert m t.2 else m) acc).Nodup := by
  intro ts
  induction ts with
  | nil => intro acc h; exact h
  | cons t rest ih =>
      intro acc h
      rw [List.foldl_cons]
      by_cases hc : t.1 = c
      · rw [if_pos hc]
        exact ih _ (nodup_sInsert _ _ h)
      · rw [if_neg hc]
        exact ih _ h

/-- A duplicate-free list has more than one element exactly when it holds two
different elements. -/
theorem one_lt_length_iff_nodup (l : List Nat) (hn : l.Nodup) :
    1 < l.length ↔ ∃ a, a ∈ l ∧ ∃ b, b ∈ l ∧ a ≠ b := by
  constructor
  · intro h
    match l, h with
    | a :: b :: rest, _ =>
        have hab : a ≠ b := by
          rw [List.nodup_cons] at hn
          intro he
          exact hn.1 (he ▸ List.mem_cons_self b rest)
        exact ⟨a, List.mem_cons_self _ _,
          b, List.mem_cons_of_mem _ (List.mem_cons_self _ _), hab⟩
  · rintro ⟨a, ha, b, hb, hab⟩
    match l, ha, hb with
    | [x], ha, hb =>
        rw [List.mem_singleton] at ha hb
        exact absurd (ha.trans hb.symm) hab
    | _ :: _ :: _, _, _ => simp

/-- Lookup in the map built by the ndt_of outer loop: a symbol is bound
exactly when it occurs in the scanned alphabet with more than one
destination, and then to its destination set. -/
theorem alGet_ndtFold {T : Type} [DecidableEq T] (ts : List (T × Nat)) :
    ∀ (alpha : List T) (acc : List (T × List Nat)) (c : T),
      alGet (alpha.foldl
          (fun ndt a =>
            if 1 < (destsOf ts a).length then alInsert ndt a (destsOf ts a) else ndt)
          acc) c =
        if c ∈ alpha ∧ 1 < (destsOf ts c).length then some (destsOf ts c)
        else alGet acc c := by
  intro alpha
  induction alpha with
  | nil => intro acc c; simp
  | cons a rest ih =>
      intro acc c
      rw [List.foldl_cons, ih]
      by_cases h1 : c ∈ rest ∧ 1 < (destsOf ts c).length
      · rw [if_pos h1, if_pos ⟨List.mem_cons_of_mem _ h1.1, h1.2⟩]
      · rw [if_neg h1]
        by_cases ha : 1 < (destsOf ts a).length
        · rw [if_pos ha, alGet_alInsert]
          by_cases hac : a = c
          · subst hac
            rw [if_pos rfl, if_pos ⟨List.mem_cons_self _ _, ha⟩]
          · have hcond : ¬(c ∈ a :: rest ∧ 1 < (destsOf ts c).length) := by
              rintro ⟨hm, hbig⟩
              rcases List.mem_cons.1 hm with rfl | hm2
              · exact hac rfl
              · exact h1 ⟨hm2, hbig⟩
            rw [if_neg hac, if_neg hcond]
        · have hcond : ¬(c ∈ a :: rest ∧ 1 < (destsOf ts c).length) := by
            rintro ⟨hm, hbig⟩
            rcases List.mem_cons.1 hm with rfl | hm2
            · exact ha hbig
            · exact h1 ⟨hm2, hbig⟩
          rw [if_neg ha, if_neg hcond]

/-- C9 (amended): for every state s that owns a transition entry, ndt_of
returns without failure, its result map binds exactly the symbols of the
alphabet having more than one destination from s, and each bound destination
set holds exactly the destinations of the state's transitions on that symbol;
for a state without a transition entry ndt_of panics whenever the alphabet is
non-empty (see the counterexample). -/
theorem ndt_of_success_c9 {T : Type} [DecidableEq T] (d : Dfa T) (s : Nat)
    (ts : List (T × Nat)) (h : alGet d.transitions s = some ts) (c : T) :
    ndtOf d s = some (ndtOfKey d ts) ∧
      ((alGet (ndtOfKey d ts) c).isSome = true ↔
        c ∈ d.alphabet ∧ ∃ a, (c, a) ∈ ts ∧ ∃ b, (c, b) ∈ ts ∧ a ≠ b) ∧
      ∀ m, alGet (ndtOfKey d ts) c = some m → ∀ x, x ∈ m ↔ (c, x) ∈ ts := by
  have hkey : alGet (ndtOfKey d ts) c =
      if c ∈ d.alphabet ∧ 1 < (destsOf ts c).length then some (destsOf ts c)
      else none := by
    rw [ndtOfKey, alGet_ndtFold]
    rfl
  have hiff : 1 < (destsOf ts c).length ↔
      ∃ a, (c, a) ∈ ts ∧ ∃ b, (c, b) ∈ ts ∧ a ≠ b := by
    have hnd : (destsOf ts c).Nodup := by
      rw [destsOf]
      exact nodup_destsOf c ts [] List.nodup_nil
    rw [one_lt_length_iff_nodup _ hnd]
    simp only [mem_destsOf]
  refine ⟨?_, ?_, ?_⟩
  · rcases halpha : d.alphabet with _ | ⟨a, rest⟩
    · have hk : ndtOfKey d ts = [] := by rw [ndtOfKey, halpha]; rfl
      rw [ndtOf, halpha, hk]
    · rw [ndtOf, halpha, h]
  · rw [hkey]
    by_cases hcond : c ∈ d.alphabet ∧ 1 < (destsOf ts c).length
    · rw [if_pos hcond]
      simp only [Option.isSome_some, true_iff]
      exact ⟨hcond.1, hiff.1 hcond.2⟩
    · rw [if_neg hcond]
      simp only [Option.isSome_none, Bool.false_eq_true, false_iff]
      rintro ⟨hm, hex⟩
      exact hcond ⟨hm, hiff.2 hex⟩
  · intro m hm x
    rw [hkey] at hm
    by_cases hcond : c ∈ d.alphabet ∧ 1 < (destsOf ts c).length
    · rw [if_pos hcond] at hm
      obtain rfl := Option.some.inj hm
      exact mem_destsOf ts c x
    · rw [if_neg hcond] at hm
      cases hm

/-- Instantiates ndt_of_success_c9 on a state with two a-transitions. -/
theorem ndt_of_success_c9_witness :
    ndtOf exNdt 0 = some (ndtOfKey exNdt [('a', 1), ('a', 2)]) :=
  (ndt_of_success_c9 exNdt 0 [('a', 1), ('a', 2)] (by decide) 'a').1

/-- A fold whose step preserves a predicate preserves it from any start. -/
theorem foldl_preserve {α β : Type} (P : β → Prop) (f : β → α → β)
    (hf : ∀ (b : β) (a : α), P b → P (f b a)) :
    ∀ (l : List α) (b : β), P b → P (l.foldl f b) := by
  intro l
  induction l with
  | nil => intro b h; exact h
  | cons a as ih => intro b h; exact ih (f b a) (hf b a h)

/-- The executable and propositional alphabet inclusions agree. -/
theorem transSymbolsOk_iff_symOk {T : Type} [DecidableEq T] (d : Dfa T) :
    transSymbolsOk d = true ↔ symOk d := by
  simp [transSymbolsOk, symOk, List.all_eq_true]

/-- add_transition_to keeps every transition symbol inside the alphabet. -/
theorem symOk_addTransitionTo {T : Type} [DecidableEq T] (d : Dfa T) (s : Nat)
    (t : T × Nat) (h : symOk d) : symOk (d.addTransitionTo s t) := by
  unfold addTransitionTo
  rcases halg : alGet d.transitions s with _ | ts <;> simp only [halg]
  · intro p hp tr htr
    rcases mem_alInsert _ _ _ _ hp with rfl | hp2
    · rw [List.mem_singleton] at htr
      subst htr
      exact (mem_sInsert_iff _ _ _).2 (Or.inl rfl)
    · exact (mem_sInsert_iff _ _ _).2 (Or.inr (h p hp2 tr htr))
  · intro p hp tr htr
    rcases mem_alInsert _ _ _ _ hp with rfl | hp2
    · rcases (mem_sInsert_iff _ _ _).1 htr with rfl | htr2
      · exact (mem_sInsert_iff _ _ _).2 (Or.inl rfl)
      · exact (mem_sInsert_iff _ _ _).2 (Or.inr (h _ (alGet_mem _ _ _ halg) tr htr2))
    · exact (mem_sInsert_iff _ _ _).2 (Or.inr (h p hp2 tr htr))

/-- remove_state keeps every transition symbol inside the alphabet. -/
theorem symOk_removeState {T : Type} [DecidableEq T] (d : Dfa T) (i : Nat)
    (h : symOk d) : symOk (d.removeState i).2 := by
  have hmap : ∀ p ∈ d.transitions.map (fun p => (p.1, p.2.filter (fun t => t.2 ≠ i))),
      ∀ tr ∈ p.2, tr.1 ∈ d.alphabet := by
    intro p hp tr htr
    rw [List.mem_map] at hp
    obtain ⟨q, hq, rfl⟩ := hp
    rw [List.mem_filter] at htr
    exact h q hq tr htr.1
  rcases hst : alGet d.states i with _ | acc <;> simp only [removeState, hst]
  · exact hmap
  · intro p hp tr htr
    exact hmap p (List.mem_filter.1 hp).1 tr htr

/-- The per-state loop of insert_error_state keeps symbols in the alphabet. -/
theorem symOk_insertErrorStep {T : Type} [DecidableEq T] (e : Nat) (alpha : List T)
    (x : Dfa T) (s : Nat) (h : symOk x) : symOk (insertErrorStep e alpha x s) := by
  unfold insertErrorStep
  rcases hget : alGet x.transitions s with _ | ts <;> simp only [hget]
  · refine foldl_preserve symOk _
      (fun b a hb => symOk_addTransitionTo b s (a, e) hb) _ _ ?_
    intro p hp tr htr
    rcases mem_alInsert _ _ _ _ hp with rfl | hp2
    · cases htr
    · exact h p hp2 tr htr
  · exact foldl_preserve symOk _
      (fun b a hb => symOk_addTransitionTo b s (a, e) hb) _ _ h

/-- insert_error_state keeps every transition symbol inside the alphabet. -/
theorem symOk_insertErrorState {T : Type} [DecidableEq T] (d : Dfa T)
    (h : symOk d) : symOk d.insertErrorState := by
  unfold insertErrorState
  exact foldl_preserve symOk _
    (fun b a hb => symOk_insertErrorStep _ _ b a hb) _ _ h

/-- The state chosen in step 1b leaves the alphabet inclusion intact. -/
theorem symOk_detNewstate {T : Type} [DecidableEq T] (sm : List (Nat × List Nat))
    (d : Dfa T) (tos : List Nat) (h : symOk d) : symOk (detNewstate sm d tos).2.2 := by
  unfold detNewstate
  rcases hfe : findEquivalent sm (expandTransTo sm tos) with _ | st <;> simp only [hfe]
  · exact h
  · exact h

/-- Every element of the deterministic remainder built by the cleanup fold
comes from the accumulator or the scanned transition set. -/
theorem mem_detsFold {T : Type} [DecidableEq T] (c : T) :
    ∀ (ts acc : List (T × Nat)) (x : T × Nat),
      x ∈ ts.foldl (fun m t => if t.1 = c then m else sInsert m t) acc →
        x ∈ acc ∨ x ∈ ts := by
  intro ts
  induction ts with
  | nil => intro acc x h; exact Or.inl h
  | cons t rest ih =>
      intro acc x h
      rw [List.foldl_cons] at h
      rcases ih _ x h with h2 | h2
      · by_cases hc : t.1 = c
        · rw [if_pos hc] at h2
          exact Or.inl h2
        · rw [if_neg hc] at h2
          rcases (mem_sInsert_iff _ _ _).1 h2 with rfl | h3
          · exact Or.inr (List.mem_cons_self _ _)
          · exact Or.inl h3
      · exact Or.inr (List.mem_cons_of_mem _ h2)

/-- The cleanup of determinize keeps every transition symbol in the alphabet:
the deterministic rest is a subset of the old transition set. -/
theorem symOk_detCleanup {T : Type} [DecidableEq T] (d : Dfa T) (s : Nat) (c : T)
    (h : symOk d) : symOk (detCleanup d s c).2 := by
  unfold detCleanup
  rcases hget : alGet d.transitions s with _ | ts <;> simp only [hget]
  · exact h
  · intro p hp tr htr
    rcases mem_alInsert _ _ _ _ hp with rfl | hp2
    · rcases mem_detsFold c ts [] tr htr with h2 | h2
      · cases h2
      · exact h _ (alGet_mem _ _ _ hget) tr h2
    · exact h p hp2 tr htr

/-- One phase-1 entry of determinize preserves the alphabet inclusion. -/
theorem symOk_detStep1Sym {T : Type} [DecidableEq T]
    (acc : List (Nat × List Nat) × List (Nat × List (T × Nat)) × Dfa T)
    (s : Nat) (c : T) (tos : List Nat) (h : symOk acc.2.2) :
    symOk (detStep1Sym acc s c tos).2.2 := by
  unfold detStep1Sym
  exact symOk_addTransitionTo _ s (c, (detNewstate acc.1 acc.2.2 tos).1)
    (symOk_detCleanup _ s c (symOk_detNewstate acc.1 acc.2.2 tos h))

/-- The inner phase-1 fold over one symbol map preserves the inclusion. -/
theorem symOk_detStep1Entry {T : Type} [DecidableEq T] :
    ∀ (l : List (T × List Nat)) (s : Nat)
      (acc : List (Nat × List Nat) × List (Nat × List (T × Nat)) × Dfa T),
      symOk acc.2.2 →
      symOk ((l.foldl (fun acc2 q => detStep1Sym acc2 s q.1 q.2) acc)).2.2 := by
  intro l
  induction l with
  | nil => intro s acc h; exact h
  | cons q rest ih =>
      intro s acc h
      rw [List.foldl_cons]
      exact ih s _ (symOk_detStep1Sym acc s q.1 q.2 h)

/-- The outer phase-1 fold over all non-deterministic states preserves the
inclusion. -/
theorem symOk_detStep1All {T : Type} [DecidableEq T] :
    ∀ (nd : List (Nat × List (T × List Nat)))
      (acc : List (Nat × List Nat) × List (Nat × List (T × Nat)) × Dfa T),
      symOk acc.2.2 →
      symOk ((nd.foldl
        (fun acc p => p.2.foldl (fun acc2 q => detStep1Sym acc2 p.1 q.1 q.2) acc)
        acc)).2.2 := by
  intro nd
  induction nd with
  | nil => intro acc h; exact h
  | cons p rest ih =>
      intro acc h
      rw [List.foldl_cons]
      exact ih _ (symOk_detStep1Entry p.2 p.1 acc h)

/-- Phase 1 of determinize preserves the alphabet inclusion. -/
theorem symOk_detStep1 {T : Type} [DecidableEq T] (sm : List (Nat × List Nat))
    (nd : List (Nat × List (T × List Nat))) (d : Dfa T) (h : symOk d) :
    symOk (detStep1 sm nd d).2.2 := by
  unfold detStep1
  exact symOk_detStep1All nd (sm, [], d) h

/-- Phase 2 of determinize for one synthesized state preserves the alphabet
inclusion of any automaton it returns. -/
theorem symOk_detStep2One {T : Type} [DecidableEq T] (sm : List (Nat × List Nat))
    (o : Option (Dfa T)) (ns : Nat) (ts : List (T × Nat))
    (h : ∀ x, o = some x → symOk x) :
    ∀ x, detStep2One sm o ns ts = some x → symOk x := by
  intro x hx
  rcases o with _ | d
  · cases hx
  · have hd : symOk d := h d rfl
    rcases hsup : detSuperstate sm ts with _ | st
    · simp only [detStep2One, hsup] at hx
      obtain rfl := Option.some.inj hx
      exact foldl_preserve symOk _
        (fun b a hb => symOk_addTransitionTo b ns a hb) _ _ hd
    · rcases hget : alGet d.transitions st with _ | sts
      · simp only [detStep2One, hsup, hget] at hx
        cases hx
      · simp only [detStep2One, hsup, hget] at hx
        obtain rfl := Option.some.inj hx
        exact foldl_preserve symOk _
          (fun b a hb => symOk_addTransitionTo b ns a hb) _ _ hd

/-- One full determinize iteration preserves the alphabet inclusion of any
automaton it returns. -/
theorem symOk_detIter {T : Type} [DecidableEq T] (sm : List (Nat × List Nat))
    (d : Dfa T) (nd : List (Nat × List (T × List Nat))) (h : symOk d) :
    ∀ x, (detIter sm d nd).2 = some x → symOk x := by
  unfold detIter
  exact foldl_preserve (fun o => ∀ x, o = some x → symOk x) _
    (fun b a hb => symOk_detStep2One _ b a.1 a.2 hb) _ _
    (fun x hx => by
      obtain rfl := Option.some.inj hx
      exact symOk_detStep1 sm nd d h)

/-- A normal return of the determinize loop preserves the alphabet inclusion. -/
theorem symOk_determinizeLoop {T : Type} [DecidableEq T] :
    ∀ (n : Nat) (sm : List (Nat × List Nat)) (d d2 : Dfa T), symOk d →
      determinizeLoop n sm d = DetResult.done d2 → symOk d2 := by
  intro n
  induction n with
  | zero =>
      intro sm d d2 h heq
      rcases hnd : nonDeterministStates d with _ | nd <;>
        simp only [determinizeLoop, hnd] at heq
      · cases heq
        exact h
      · cases heq
  | succ m ih =>
      intro sm d d2 h heq
      rcases hnd : nonDeterministStates d with _ | nd
      · simp only [determinizeLoop, hnd] at heq
        cases heq
        exact h
      · rcases hit : detIter sm d nd with ⟨sm2, od⟩
        rcases od with _ | dd
        · simp only [determinizeLoop, hnd, hit] at heq
          cases heq
        · simp only [determinizeLoop, hnd, hit] at heq
          exact ih sm2 dd d2 (symOk_detIter sm d nd h dd (by rw [hit])) heq

/-- A fresh automaton has no transitions, so the inclusion holds. -/
theorem symOk_new {T : Type} [DecidableEq T] : symOk (Dfa.new : Dfa T) := by
  intro p hp
  cases hp

/-- Whatever runDeterminize returns satisfies the alphabet inclusion. -/
theorem symOk_runDeterminize (fuel : Nat) (d : Dfa Char) (h : symOk d) :
    symOk (runDeterminize fuel d) := by
  unfold runDeterminize
  rcases hdl : determinizeLoop fuel [] d with d2 | _ | _ <;> simp only [hdl]
  · exact symOk_determinizeLoop fuel [] d d2 h hdl
  · exact h
  · exact h

/-- Every single operation preserves the alphabet inclusion. -/
theorem symOk_applyOp (d : Dfa Char) (op : Op) (h : symOk d) :
    symOk (applyOp d op) := by
  cases op with
  | addSt b => exact h
  | setInit i => exact h
  | rewindOp => exact h
  | setCur i =>
      show symOk ((d.setCurrent i).getD d)
      rcases hsc : d.setCurrent i with _ | d2
      · exact h
      · rw [Option.getD_some]
        unfold Dfa.setCurrent at hsc
        split at hsc
        · cases hsc
          exact h
        · cases hsc
  | setCurAccept b => exact h
  | addTrans s t => exact symOk_addTransitionTo d s t h
  | createBetween o t b => exact symOk_addTransitionTo d o (b, t) h
  | createTr b t => exact symOk_addTransitionTo d d.current (b, t) h
  | createWalk b t => exact symOk_addTransitionTo d d.current (b, t) h
  | rmSt i => exact symOk_removeState d i h
  | rmUnreach =>
      exact foldl_preserve symOk _ (fun b a hb => symOk_removeState b a hb) _ _ h
  | rmDead =>
      exact foldl_preserve symOk _ (fun b a hb => symOk_removeState b a hb) _ _ h
  | minimizeOp =>
      exact foldl_preserve symOk _ (fun b a hb => symOk_removeState b a hb) _ _
        (foldl_preserve symOk _ (fun b a hb => symOk_removeState b a hb) _ _ h)
  | insertErr => exact symOk_insertErrorState d h
  | determinizeOp fuel => exact symOk_runDeterminize fuel d h

/-- C7 (amended): after every sequence of operations the alphabet contains
every symbol appearing on a current transition; equality fails because
removals never shrink the alphabet (see the counterexample), so the alphabet
is only an over-approximation of the symbols in use. -/
theorem alphabet_superset_c7 :
    ∀ ops : List Op, transSymbolsOk (applyOps ops) = true := by
  intro ops
  rw [transSymbolsOk_iff_symOk]
  exact foldl_preserve symOk applyOp (fun b a hb => symOk_applyOp b a hb) ops
    Dfa.new symOk_new

end Lexan
